import Mathlib

/-!
Shallow embedding of `src/BackgroundPublish.h` (template class
`BackgroundPublish<NumQueues>`), a bounded, priority-ordered, rate-limited
background publish dispatcher.

Modelling choices:
* C strings are `List Char` (the characters before the terminating NUL).
  `std::strncpy` into a `char[cap + 1]` buffer followed by a forced NUL at
  index `cap` stores exactly the first `cap` characters of the source.
* `PublishFlags`, callback identities and the opaque `context` pointer are
  modelled as `Nat` (their values are never inspected by the code).
* A null `publish_completed_cb_t` is `Option.none`; a null `data` pointer is
  `Option.none`.
* `system_tick_t` is `uint32_t`; times are `Nat` and the unsigned wraparound
  subtraction `now - publish_t[i]` is `u32sub`.
* The member `_queues : std::array<std::queue<publish_event_t>, NumQueues>`
  is a `List (List publish_event_t)`; `NumQueues` is its length.  A
  `std::queue` front is the list head, pushes append at the tail.
* The worker thread body (`BackgroundPublish::thread`) is a step function
  `tick` over the object state plus the thread-local rate-limiter state
  (`publish_t`, `i`); one `tick` is one iteration of the `while(running)`
  loop at clock value `now = millis()`.
-/

/-- particle::Error values that the repository code mentions
(`Error::NONE`, `Error::CANCELLED`); all others are collapsed to
`UNKNOWN`. -/
inductive PError where
  | NONE
  | CANCELLED
  | UNKNOWN
deriving DecidableEq

/-- Device OS protocol constant `particle::protocol::MAX_EVENT_NAME_LENGTH`
(external to this repository). -/
def MAX_EVENT_NAME_LENGTH : Nat := 64

/-- Device OS protocol constant `particle::protocol::MAX_EVENT_DATA_LENGTH`
(external to this repository). -/
def MAX_EVENT_DATA_LENGTH : Nat := 1024

/-- Result of `std::strncpy(dest, src, cap + 1)` into a `char[cap + 1]`
buffer followed by `dest[cap] = 0`: the stored C string is `src` truncated
to `cap` characters. -/
def strncpyTrunc (src : List Char) (cap : Nat) : List Char := src.take cap

/-- The queued request record `publish_event_t` of `BackgroundPublish.h`:
flags, optional completion callback, opaque context, and the two owned
character buffers `event_name` / `event_data`. -/
structure publish_event_t where
  event_flags : Nat
  completed_cb : Option Nat
  event_context : Nat
  event_name : List Char
  event_data : List Char
deriving DecidableEq

/-- Object state of a `BackgroundPublish<NumQueues>` instance: the queue
array, the `running` flag and the `maxEntries` capacity bound
(constructor argument, default 8). -/
structure BP where
  _queues : List (List publish_event_t)
  running : Bool
  maxEntries : Nat
deriving DecidableEq

/-- The event record built by `publish` on the accept path: flags, callback
and context stored as given; `event_name` is the `strncpy` truncation of
`name`; `event_data` is the truncation of `data`, or empty when `data` is
the null pointer. -/
def mkEvent (name : List Char) (data : Option (List Char)) (flags : Nat)
    (cb : Option Nat) (context : Nat) : publish_event_t :=
  { event_flags := flags
    completed_cb := cb
    event_context := context
    event_name := strncpyTrunc name MAX_EVENT_NAME_LENGTH
    event_data :=
      match data with
      | some d => strncpyTrunc d MAX_EVENT_DATA_LENGTH
      | none => [] }

/-- `BackgroundPublish::publish`: reject when not running, when
`priority >= NumQueues`, or when `_queues[priority].size() >= maxEntries`;
otherwise append the copied event record at the tail of
`_queues[priority]` and return true.  Returns the boolean result together
with the updated object state. -/
def publish (bp : BP) (name : List Char) (data : Option (List Char))
    (flags : Nat) (priority : Nat) (cb : Option Nat) (context : Nat) :
    Bool × BP :=
  if bp.running = false then (false, bp)
  else if bp._queues.length ≤ priority then (false, bp)
  else if bp.maxEntries ≤ (bp._queues.getD priority []).length then (false, bp)
  else
    (true,
      { bp with
          _queues := bp._queues.set priority
            (bp._queues.getD priority [] ++ [mkEvent name data flags cb context]) })

/-- One recorded completion-callback invocation: which callback, with which
status and arguments. -/
structure CbCall where
  cb : Nat
  status : PError
  event_name : List Char
  event_data : List Char
  event_context : Nat
deriving DecidableEq

/-- The inner `while(!queue.empty())` loop of `BackgroundPublish::cleanup`:
pop the front repeatedly, invoking the completion callback (when present)
with `Error::CANCELLED`. -/
def drainQueue : List publish_event_t → List CbCall
  | [] => []
  | e :: rest =>
    match e.completed_cb with
    | some cb =>
        { cb := cb, status := PError.CANCELLED, event_name := e.event_name
          event_data := e.event_data, event_context := e.event_context } ::
          drainQueue rest
    | none => drainQueue rest

/-- `BackgroundPublish::cleanup`: drain every queue front to back, in level
order, invoking callbacks with `Error::CANCELLED`.  Returns the new object
state, the callback invocations in order, and the list of transport
(`process_publish`) invocations the body makes, which is none: `cleanup`
never calls the transport. -/
def cleanup (bp : BP) : BP × List CbCall × List publish_event_t :=
  ({ bp with _queues := bp._queues.map (fun _ => ([] : List publish_event_t)) },
   (bp._queues.map drainQueue).flatten,
   [])

/-- Modulus of `system_tick_t` (`uint32_t`) arithmetic. -/
def U32 : Nat := 4294967296

/-- Unsigned 32-bit subtraction `a - b` as computed on `system_tick_t`. -/
def u32sub (a b : Nat) : Nat := (a % U32 + U32 - b % U32) % U32

/-- The `constexpr std::size_t burst_rate` local of
`BackgroundPublish::thread`. -/
def burst_rate : Nat := 2

/-- The `constexpr system_tick_t process_interval` local of
`BackgroundPublish::thread`. -/
def process_interval : Nat := 1000

/-- Worker-loop state: the object state plus the thread-local circular
buffer `publish_t[burst_rate]` (zero-initialised) and its index `i`. -/
structure WorkerState where
  bp : BP
  publish_t : List Nat
  i : Nat
deriving DecidableEq

/-- The `for(auto &queue : _queues)` scan of the worker: find the first
non-empty queue; return its level, its front element, and the queue array
with that front popped. -/
def scanQueues : List (List publish_event_t) →
    Option (Nat × publish_event_t × List (List publish_event_t))
  | [] => none
  | [] :: rest =>
    match scanQueues rest with
    | none => none
    | some (lvl, e, rest') => some (lvl + 1, e, [] :: rest')
  | (e :: q) :: rest => some (0, e, q :: rest)

/-- Result of one worker-loop iteration: the successor state and the event
(with its level) handed to `process_publish`, if any. -/
structure TickOut where
  st : WorkerState
  dispatched : Option (Nat × publish_event_t)
deriving DecidableEq

/-- One iteration of the `while(running)` loop of
`BackgroundPublish::thread` at clock value `now` (a `system_tick_t`,
so `now < U32` in any real execution): if not running, nothing happens;
if `now - publish_t[i] >= process_interval` fails, nothing happens;
otherwise the first non-empty queue (scanning level 0 upward) has its
front popped and dispatched, and `publish_t[i] = now; i = (i+1) %
burst_rate` is recorded.  When all queues are empty nothing is recorded. -/
def tick (s : WorkerState) (now : Nat) : TickOut :=
  if s.bp.running = false then ⟨s, none⟩
  else if process_interval ≤ u32sub now (s.publish_t.getD s.i 0) then
    match scanQueues s.bp._queues with
    | none => ⟨s, none⟩
    | some (lvl, e, qs) =>
      ⟨⟨{ s.bp with _queues := qs },
        s.publish_t.set s.i now, (s.i + 1) % burst_rate⟩,
       some (lvl, e)⟩
  else ⟨s, none⟩

/-- The worker-local rate limiter state at thread start:
`system_tick_t publish_t[burst_rate] {}` and `std::size_t i {}`. -/
def initRate : List Nat × Nat := ([0, 0], 0)

/-- Dequeue policy stated by the specification: scan levels `0 ..
NumLevels-1` in order and take the front of the first non-empty queue;
none if all are empty. -/
def dequeueNextSpec : List (List publish_event_t) → Option (Nat × publish_event_t)
  | [] => none
  | [] :: rest => (dequeueNextSpec rest).map (fun x => (x.1 + 1, x.2))
  | (e :: _) :: _ => some (0, e)

/-- One externally-triggered step of the system while running: a producer
call to `publish`, or one worker-loop iteration at a given clock value. -/
inductive Op where
  | pub (name : List Char) (data : Option (List Char)) (flags : Nat)
        (priority : Nat) (cb : Option Nat) (ctx : Nat)
  | tickAt (now : Nat)
deriving DecidableEq

/-- Run a sequence of producer calls and worker iterations from a state,
returning the final state and the dispatch trace (clock value, level,
event) in dispatch order. -/
def runOps : WorkerState → List Op → WorkerState × List (Nat × Nat × publish_event_t)
  | s, [] => (s, [])
  | s, Op.pub n d f p cb cx :: rest =>
      runOps ⟨(publish s.bp n d f p cb cx).2, s.publish_t, s.i⟩ rest
  | s, Op.tickAt now :: rest =>
      let t := tick s now
      let r := runOps t.st rest
      (r.1,
       (match t.dispatched with
        | none => []
        | some le => [(now, le.1, le.2)]) ++ r.2)

/-- Clock values of the dispatches of a run, in dispatch order. -/
def dispatchTimes (s : WorkerState) (ops : List Op) : List Nat :=
  ((runOps s ops).2).map (fun x => x.1)

/-- Events dispatched from level `p` during a run, in dispatch order. -/
def dispatchedAt (p : Nat) (ds : List (Nat × Nat × publish_event_t)) :
    List publish_event_t :=
  ds.filterMap (fun x => if x.2.1 = p then some x.2.2 else none)

/-- Events accepted at level `p` during a run, in acceptance order. -/
def acceptedAt (p : Nat) : WorkerState → List Op → List publish_event_t
  | _, [] => []
  | s, Op.pub n d f pr cb cx :: rest =>
      let r := publish s.bp n d f pr cb cx
      (if r.1 = true ∧ pr = p then [mkEvent n d f cb cx] else []) ++
        acceptedAt p ⟨r.2, s.publish_t, s.i⟩ rest
  | s, Op.tickAt now :: rest => acceptedAt p (tick s now).st rest

/-- Clock values of the worker iterations of an operation sequence. -/
def tickTimes (ops : List Op) : List Nat :=
  ops.filterMap (fun op =>
    match op with
    | Op.tickAt now => some now
    | _ => none)

/-- The cancellation callback invocation `cleanup` makes for one queued
event: one call with `Error::CANCELLED` when a callback is present, none
otherwise. -/
def cancelOf (e : publish_event_t) : Option CbCall :=
  e.completed_cb.map (fun cb =>
    { cb := cb, status := PError.CANCELLED, event_name := e.event_name
      event_data := e.event_data, event_context := e.event_context })

/-- Invariant tying the worker rate-limiter state to the times of the
dispatches performed so far (`dts`, newest first): the circular buffer has
its declared size, the index is in range, dispatch times two apart are at
least `process_interval` apart, dispatch times are monotone, and the two
buffer slots hold the two most recent dispatch times. -/
def RateInv (s : WorkerState) (dts : List Nat) : Prop :=
  s.publish_t.length = 2 ∧ s.i < 2 ∧
  (∀ k, k + 2 < dts.length →
    dts.getD (k + 2) 0 + process_interval ≤ dts.getD k 0) ∧
  (∀ k, k + 1 < dts.length → dts.getD (k + 1) 0 ≤ dts.getD k 0) ∧
  (1 ≤ dts.length → s.publish_t.getD ((s.i + 1) % 2) 0 = dts.getD 0 0) ∧
  (2 ≤ dts.length → s.publish_t.getD s.i 0 = dts.getD 1 0)

/-! ## Helper lemmas -/

theorem getD_set_self {α : Type} (d : α) :
    ∀ (l : List α) (n : Nat) (a : α), n < l.length → (l.set n a).getD n d = a
  | [], n, _, h => by simp at h
  | _ :: _, 0, _, _ => rfl
  | x :: t, n + 1, a, h => by
      simpa using getD_set_self d t n a (by simpa using h)

theorem getD_set_ne {α : Type} (d : α) :
    ∀ (l : List α) (n m : Nat) (a : α), n ≠ m →
      (l.set n a).getD m d = l.getD m d
  | [], _, _, _, _ => rfl
  | x :: t, 0, 0, a, h => absurd rfl h
  | x :: t, 0, m + 1, a, _ => by simp
  | x :: t, n + 1, 0, a, _ => by simp
  | x :: t, n + 1, m + 1, a, h => by
      simpa using getD_set_ne d t n m a (fun hc => h (by simp [hc]))

theorem getD_mem {α : Type} (d : α) :
    ∀ (l : List α) (n : Nat), n < l.length → l.getD n d ∈ l
  | x :: t, 0, _ => List.mem_cons_self x t
  | x :: t, n + 1, h =>
      List.mem_cons_of_mem x (getD_mem d t n (by simpa using h))

theorem u32sub_exact {a b : Nat} (hb : b ≤ a) (ha : a < U32) :
    u32sub a b = a - b := by
  have h1 : a % 4294967296 = a := Nat.mod_eq_of_lt ha
  have h2 : b % 4294967296 = b := Nat.mod_eq_of_lt (lt_of_le_of_lt hb ha)
  simp only [u32sub, U32] at *
  rw [h1, h2]
  omega

theorem scanQueues_toSpec : ∀ qs : List (List publish_event_t),
    (scanQueues qs).map (fun x => (x.1, x.2.1)) = dequeueNextSpec qs
  | [] => rfl
  | [] :: rest => by
      have ih := scanQueues_toSpec rest
      simp only [scanQueues, dequeueNextSpec, ← ih]
      cases h : scanQueues rest with
      | none => simp
      | some x => obtain ⟨l, e, r⟩ := x; simp
  | (e :: q) :: rest => rfl

theorem scanQueues_eq_none : ∀ qs : List (List publish_event_t),
    scanQueues qs = none ↔ ∀ q ∈ qs, q = []
  | [] => by simp [scanQueues]
  | [] :: rest => by
      have ih := scanQueues_eq_none rest
      constructor
      · intro h q hq
        rcases List.mem_cons.mp hq with h0 | hq₂
        · exact h0
        · refine ih.mp ?_ q hq₂
          cases hr : scanQueues rest with
          | none => rfl
          | some x =>
              obtain ⟨l, e, r⟩ := x
              rw [scanQueues, hr] at h
              exact absurd h (by simp)
      · intro hall
        have hr : scanQueues rest = none :=
          ih.mpr (fun q hq => hall q (List.mem_cons_of_mem _ hq))
        simp [scanQueues, hr]
  | (e :: q) :: rest => by
      constructor
      · intro h; exact absurd h (by simp [scanQueues])
      · intro hall
        have h0 : (e :: q) = [] := hall _ (List.mem_cons_self _ _)
        exact absurd h0 (by simp)

theorem scanQueues_eq_some : ∀ (qs qs' : List (List publish_event_t))
    (l : Nat) (e : publish_event_t), scanQueues qs = some (l, e, qs') →
      l < qs.length ∧ qs'.length = qs.length ∧
      qs.getD l [] = e :: qs'.getD l [] ∧
      ∀ m, m ≠ l → qs'.getD m [] = qs.getD m []
  | [], _, _, _, h => by simp [scanQueues] at h
  | [] :: rest, qs', l, e, h => by
      simp only [scanQueues] at h
      cases hr : scanQueues rest with
      | none => rw [hr] at h; exact absurd h (by simp)
      | some x =>
          obtain ⟨l₀, e₀, rest'⟩ := x
          rw [hr] at h
          simp at h
          obtain ⟨hl, he, hq⟩ := h
          obtain ⟨ih1, ih2, ih3, ih4⟩ := scanQueues_eq_some rest rest' l₀ e₀ hr
          subst hl he hq
          refine ⟨by simp only [List.length_cons]; omega,
                  by simp [ih2], by simpa using ih3, ?_⟩
          intro m hm
          cases m with
          | zero => simp
          | succ m₀ => simpa using ih4 m₀ (fun hc => hm (by simp [hc]))
  | (e₀ :: q) :: rest, qs', l, e, h => by
      simp only [scanQueues] at h
      simp at h
      obtain ⟨hl, he, hq⟩ := h
      subst hl he hq
      refine ⟨by simp, by simp, by simp, ?_⟩
      intro m hm
      cases m with
      | zero => exact absurd rfl hm
      | succ m₀ => simp

/-- C1: when the worker performs a dispatch it takes the front element of
the first non-empty queue scanning levels in order; it dispatches nothing
when all queues are empty; and whenever both level 0 and level 1 are
non-empty and the rate limiter admits, the dispatched item comes from
level 0. -/
theorem C1_dispatch_priority :
    ∀ (s : WorkerState) (now : Nat),
      ((∀ q ∈ s.bp._queues, q = []) → (tick s now).dispatched = none) ∧
      (s.bp.running = true →
        process_interval ≤ u32sub now (s.publish_t.getD s.i 0) →
        ((tick s now).dispatched = dequeueNextSpec s.bp._queues ∧
         (s.bp._queues.getD 0 [] ≠ [] → s.bp._queues.getD 1 [] ≠ [] →
           (tick s now).dispatched =
             (s.bp._queues.getD 0 []).head?.map (fun e => (0, e))))) := by
  intro s now
  constructor
  · intro hempty
    have hscan : scanQueues s.bp._queues = none :=
      (scanQueues_eq_none s.bp._queues).mpr hempty
    simp only [tick]
    split
    · rfl
    · split
      · rw [hscan]
      · rfl
  · intro hrun hadm
    have hd : (tick s now).dispatched =
        (scanQueues s.bp._queues).map (fun x => (x.1, x.2.1)) := by
      cases hscan : scanQueues s.bp._queues with
      | none =>
          simp only [tick, hrun, hscan]
          rw [if_neg (by decide : ¬ (true = false)), if_pos hadm]
          simp
      | some x =>
          obtain ⟨l, e, qs'⟩ := x
          simp only [tick, hrun, hscan]
          rw [if_neg (by decide : ¬ (true = false)), if_pos hadm]
          simp
    rw [hd, scanQueues_toSpec]
    refine ⟨rfl, ?_⟩
    intro h0 _
    cases hqs : s.bp._queues with
    | nil => rw [hqs] at h0; simp at h0
    | cons q0 rest =>
        cases hq0 : q0 with
        | nil => rw [hqs, hq0] at h0; simp at h0
        | cons e q0t => simp [dequeueNextSpec]

/-- C1 witness: with one event at each of level 0 and level 1, an
admitting clock value, the dispatch is the level-0 front. -/
theorem C1_dispatch_priority_witness :
    (tick ⟨⟨[[mkEvent ['a'] none 0 (some 1) 0], [mkEvent ['b'] none 0 none 0]],
        true, 8⟩, [0, 0], 0⟩ 1000).dispatched =
      some (0, mkEvent ['a'] none 0 (some 1) 0) := by
  have h := (C1_dispatch_priority
    ⟨⟨[[mkEvent ['a'] none 0 (some 1) 0], [mkEvent ['b'] none 0 none 0]],
        true, 8⟩, [0, 0], 0⟩ 1000).2 (by decide) (by decide)
  rw [h.1]
  decide

theorem mem_exists_getD {α : Type} (d : α) :
    ∀ (l : List α) (a : α), a ∈ l → ∃ m, m < l.length ∧ l.getD m d = a
  | x :: t, a, h => by
      rcases List.mem_cons.mp h with h0 | h1
      · exact ⟨0, by simp, by simp [h0.symm]⟩
      · obtain ⟨m, hm, he⟩ := mem_exists_getD d t a h1
        exact ⟨m + 1, by simpa using hm, by simpa using he⟩

theorem publish_eq_reject (bp : BP) (n : List Char) (d : Option (List Char))
    (f p : Nat) (cb : Option Nat) (cx : Nat)
    (h : bp.running = false ∨ bp._queues.length ≤ p ∨
      bp.maxEntries ≤ (bp._queues.getD p []).length) :
    publish bp n d f p cb cx = (false, bp) := by
  unfold publish
  rcases h with h | h | h
  · rw [if_pos h]
  · by_cases h1 : bp.running = false
    · rw [if_pos h1]
    · rw [if_neg h1, if_pos h]
  · by_cases h1 : bp.running = false
    · rw [if_pos h1]
    · rw [if_neg h1]
      by_cases h2 : bp._queues.length ≤ p
      · rw [if_pos h2]
      · rw [if_neg h2, if_pos h]

theorem publish_eq_accept (bp : BP) (n : List Char) (d : Option (List Char))
    (f p : Nat) (cb : Option Nat) (cx : Nat)
    (h1 : bp.running = true) (h2 : p < bp._queues.length)
    (h3 : (bp._queues.getD p []).length < bp.maxEntries) :
    publish bp n d f p cb cx =
      (true, { bp with _queues :=
                 (bp._queues.set p
                   (bp._queues.getD p [] ++ [mkEvent n d f cb cx])) }) := by
  unfold publish
  rw [if_neg (by simp [h1]), if_neg (by omega), if_neg (by omega)]

theorem publish_true_inv (bp : BP) (n : List Char) (d : Option (List Char))
    (f p : Nat) (cb : Option Nat) (cx : Nat)
    (h : (publish bp n d f p cb cx).1 = true) :
    bp.running = true ∧ p < bp._queues.length ∧
      (bp._queues.getD p []).length < bp.maxEntries := by
  by_cases h1 : bp.running = false
  · rw [publish_eq_reject _ _ _ _ _ _ _ (Or.inl h1)] at h
    exact absurd h (by simp)
  · by_cases h2 : bp._queues.length ≤ p
    · rw [publish_eq_reject _ _ _ _ _ _ _ (Or.inr (Or.inl h2))] at h
      exact absurd h (by simp)
    · by_cases h3 : bp.maxEntries ≤ (bp._queues.getD p []).length
      · rw [publish_eq_reject _ _ _ _ _ _ _ (Or.inr (Or.inr h3))] at h
        exact absurd h (by simp)
      · refine ⟨?_, by omega, by omega⟩
        cases hb : bp.running with
        | true => rfl
        | false => exact absurd hb h1

theorem tick_cases (s : WorkerState) (now : Nat) :
    (tick s now = ⟨s, none⟩) ∨
    ∃ l e qs', scanQueues s.bp._queues = some (l, e, qs') ∧
      s.bp.running = true ∧
      process_interval ≤ u32sub now (s.publish_t.getD s.i 0) ∧
      tick s now = ⟨⟨{ s.bp with _queues := qs' },
        s.publish_t.set s.i now, (s.i + 1) % burst_rate⟩, some (l, e)⟩ := by
  unfold tick
  by_cases h1 : s.bp.running = false
  · rw [if_pos h1]; exact Or.inl rfl
  · rw [if_neg h1]
    by_cases h2 : process_interval ≤ u32sub now (s.publish_t.getD s.i 0)
    · rw [if_pos h2]
      cases hscan : scanQueues s.bp._queues with
      | none => exact Or.inl rfl
      | some x =>
          obtain ⟨l, e, qs'⟩ := x
          refine Or.inr ⟨l, e, qs', rfl, ?_, h2, rfl⟩
          cases hb : s.bp.running with
          | true => rfl
          | false => exact absurd hb h1
    · rw [if_neg h2]; exact Or.inl rfl

theorem tick_some_inv (s : WorkerState) (now : Nat) (l : Nat)
    (e : publish_event_t) (h : (tick s now).dispatched = some (l, e)) :
    s.bp.running = true ∧
    process_interval ≤ u32sub now (s.publish_t.getD s.i 0) ∧
    scanQueues s.bp._queues = some (l, e, (tick s now).st.bp._queues) ∧
    (tick s now).st.bp.running = s.bp.running ∧
    (tick s now).st.bp.maxEntries = s.bp.maxEntries ∧
    (tick s now).st.publish_t = s.publish_t.set s.i now ∧
    (tick s now).st.i = (s.i + 1) % burst_rate := by
  rcases tick_cases s now with h0 | ⟨l', e', qs', hscan, hrun, hadm, heq⟩
  · rw [h0] at h; exact absurd h (by simp)
  · rw [heq] at h
    simp at h
    obtain ⟨hl, he⟩ := h
    subst hl he
    rw [heq]
    exact ⟨hrun, hadm, hscan, rfl, rfl, rfl, rfl⟩

theorem tick_none_state (s : WorkerState) (now : Nat)
    (h : (tick s now).dispatched = none) : (tick s now).st = s := by
  rcases tick_cases s now with h0 | ⟨l, e, qs', hscan, hrun, hadm, heq⟩
  · rw [h0]
  · rw [heq] at h; exact absurd h (by simp)

/-- C5: `publish` returns false and leaves the state unchanged exactly when
the publisher is not running, the priority is out of range, or the target
queue is full; otherwise it returns true and appends exactly one request at
the tail of the target queue.  Since a rejected request leaves the object
state unchanged, it can never be dispatched or drained, so no completion
callback ever fires for it. -/
theorem C5_publish_rejection :
    ∀ (bp : BP) (n : List Char) (d : Option (List Char)) (f p : Nat)
      (cb : Option Nat) (cx : Nat),
      ((publish bp n d f p cb cx).1 = false ↔
        (bp.running = false ∨ bp._queues.length ≤ p ∨
          bp.maxEntries ≤ (bp._queues.getD p []).length)) ∧
      ((publish bp n d f p cb cx).1 = false →
        (publish bp n d f p cb cx).2 = bp) ∧
      ((publish bp n d f p cb cx).1 = true →
        (publish bp n d f p cb cx).2 =
          { bp with _queues :=
              (bp._queues.set p
                (bp._queues.getD p [] ++ [mkEvent n d f cb cx])) }) := by
  intro bp n d f p cb cx
  by_cases hrej : bp.running = false ∨ bp._queues.length ≤ p ∨
      bp.maxEntries ≤ (bp._queues.getD p []).length
  · rw [publish_eq_reject bp n d f p cb cx hrej]
    exact ⟨iff_of_true rfl hrej, fun _ => rfl, fun h => absurd h (by simp)⟩
  · push_neg at hrej
    obtain ⟨h1, h2, h3⟩ := hrej
    have h1' : bp.running = true := by
      cases hb : bp.running with
      | true => rfl
      | false => exact absurd hb h1
    rw [publish_eq_accept bp n d f p cb cx h1' h2 h3]
    refine ⟨?_, fun h => absurd h (by simp), fun _ => rfl⟩
    simp only [h1']
    constructor
    · intro h; exact absurd h (by simp)
    · intro h
      rcases h with h | h | h
      · exact absurd h (by simp)
      · omega
      · omega

/-- C5 witness: a stopped publisher rejects and is unchanged. -/
theorem C5_publish_rejection_witness :
    (publish ⟨[[], []], false, 8⟩ ['x'] none 0 0 none 0).1 = false ∧
    (publish ⟨[[], []], false, 8⟩ ['x'] none 0 0 none 0).2 =
      ⟨[[], []], false, 8⟩ := by
  have h := C5_publish_rejection ⟨[[], []], false, 8⟩ ['x'] none 0 0 none 0
  have hf : (publish ⟨[[], []], false, 8⟩ ['x'] none 0 0 none 0).1 = false :=
    h.1.mpr (Or.inl rfl)
  exact ⟨hf, h.2.1 hf⟩

/-- C10: with a running publisher, a valid priority and a non-full queue,
the request is accepted regardless of the name or data length and of a
null data pointer; the stored `event_name` and `event_data` are the inputs
truncated to `MAX_EVENT_NAME_LENGTH` and `MAX_EVENT_DATA_LENGTH`
characters, and a null data pointer is stored as the empty string. -/
theorem C10_accept_truncation :
    ∀ (bp : BP) (n : List Char) (d : Option (List Char)) (f p : Nat)
      (cb : Option Nat) (cx : Nat),
      bp.running = true → p < bp._queues.length →
      (bp._queues.getD p []).length < bp.maxEntries →
      (publish bp n d f p cb cx).1 = true ∧
      (publish bp n d f p cb cx).2._queues.getD p [] =
        bp._queues.getD p [] ++ [mkEvent n d f cb cx] ∧
      (mkEvent n d f cb cx).event_name = n.take MAX_EVENT_NAME_LENGTH ∧
      ((mkEvent n d f cb cx).event_data =
        match d with
        | some s => s.take MAX_EVENT_DATA_LENGTH
        | none => []) := by
  intro bp n d f p cb cx h1 h2 h3
  rw [publish_eq_accept bp n d f p cb cx h1 h2 h3]
  refine ⟨rfl, ?_, rfl, ?_⟩
  · exact getD_set_self [] bp._queues p _ h2
  · cases d <;> rfl

/-- C10 witness: a 65-character name with a null data pointer is accepted
and stored truncated. -/
theorem C10_accept_truncation_witness :
    (publish ⟨[[], []], true, 8⟩ (List.replicate 65 'a') none 0 0 none 0).1
        = true ∧
    (mkEvent (List.replicate 65 'a') none 0 none 0).event_name =
      (List.replicate 65 'a').take MAX_EVENT_NAME_LENGTH := by
  have h := C10_accept_truncation ⟨[[], []], true, 8⟩ (List.replicate 65 'a')
    none 0 0 none 0 rfl (by simp) (by simp)
  exact ⟨h.1, h.2.2.1⟩

/-- C2 counterexample: a 65-character name is accepted, but the stored
name is the 64-character truncation, so the stored request name does not
equal the contents of the caller string at the moment of the call. -/
theorem C2_counterexample :
    (publish ⟨[[], []], true, 8⟩ (List.replicate 65 'a') none 0 0 none 0).1
        = true ∧
    ((publish ⟨[[], []], true, 8⟩ (List.replicate 65 'a') none 0 0 none
          0).2._queues.getD 0 []).map (fun e => e.event_name) ≠
      [List.replicate 65 'a'] := by
  constructor
  · rw [publish_eq_accept _ _ _ _ _ _ _ rfl (by simp) (by simp)]
  · rw [publish_eq_accept _ _ _ _ _ _ _ rfl (by simp) (by simp)]
    intro hcontra
    have hlen := congrArg (fun l => (l.headD []).length) hcontra
    simp [mkEvent, strncpyTrunc, MAX_EVENT_NAME_LENGTH] at hlen

/-- C2 amended: for every accepted publish request, the name and payload
are copied by value into the queued record at enqueue time, as pure
functions of the contents of the caller strings at the moment of the
call (hence independent of the caller buffers afterwards): the stored
name and data are the truncations of those contents to
`MAX_EVENT_NAME_LENGTH` / `MAX_EVENT_DATA_LENGTH` characters — equal to
the contents whenever they are within bounds — and a null data pointer is
stored as the empty string. -/
theorem C2_copy_on_enqueue :
    ∀ (bp : BP) (n : List Char) (d : Option (List Char)) (f p : Nat)
      (cb : Option Nat) (cx : Nat),
      (publish bp n d f p cb cx).1 = true →
      ((publish bp n d f p cb cx).2._queues.getD p []).getLast? =
        some (mkEvent n d f cb cx) ∧
      (mkEvent n d f cb cx).event_name = n.take MAX_EVENT_NAME_LENGTH ∧
      (n.length ≤ MAX_EVENT_NAME_LENGTH →
        (mkEvent n d f cb cx).event_name = n) ∧
      (∀ s, d = some s →
        (mkEvent n d f cb cx).event_data = s.take MAX_EVENT_DATA_LENGTH ∧
        (s.length ≤ MAX_EVENT_DATA_LENGTH →
          (mkEvent n d f cb cx).event_data = s)) ∧
      (d = none → (mkEvent n d f cb cx).event_data = []) := by
  intro bp n d f p cb cx hacc
  obtain ⟨h1, h2, h3⟩ := publish_true_inv bp n d f p cb cx hacc
  rw [publish_eq_accept bp n d f p cb cx h1 h2 h3]
  refine ⟨?_, rfl, ?_, ?_, ?_⟩
  · have hq := getD_set_self ([] : List publish_event_t) bp._queues p
      (bp._queues.getD p [] ++ [mkEvent n d f cb cx]) h2
    show ((bp._queues.set p _).getD p []).getLast? = _
    rw [hq]
    simp
  · intro hlen
    show n.take MAX_EVENT_NAME_LENGTH = n
    exact List.take_of_length_le hlen
  · intro s hs
    subst hs
    refine ⟨rfl, ?_⟩
    intro hlen
    show s.take MAX_EVENT_DATA_LENGTH = s
    exact List.take_of_length_le hlen
  · intro hd
    subst hd
    rfl

/-- C2 witness: an in-bounds name and payload are accepted and stored
verbatim at the tail of the target queue. -/
theorem C2_copy_on_enqueue_witness :
    ((publish ⟨[[], []], true, 8⟩ ['o', 'k'] (some ['d']) 0 1 (some 7)
          3).2._queues.getD 1 []).getLast? =
      some (mkEvent ['o', 'k'] (some ['d']) 0 (some 7) 3) ∧
    (mkEvent ['o', 'k'] (some ['d']) 0 (some 7) 3).event_name = ['o', 'k'] := by
  have h := C2_copy_on_enqueue ⟨[[], []], true, 8⟩ ['o', 'k'] (some ['d'])
    0 1 (some 7) 3 (by decide)
  exact ⟨h.1, h.2.2.1 (by decide)⟩

theorem drainQueue_eq_filterMap : ∀ q : List publish_event_t,
    drainQueue q = q.filterMap cancelOf
  | [] => rfl
  | e :: rest => by
      cases hcb : e.completed_cb with
      | some cb =>
          simp [drainQueue, hcb, List.filterMap_cons, cancelOf,
            drainQueue_eq_filterMap rest]
      | none =>
          simp [drainQueue, hcb, List.filterMap_cons, cancelOf,
            drainQueue_eq_filterMap rest]

theorem drainQueue_status (q : List publish_event_t) (c : CbCall)
    (h : c ∈ drainQueue q) : c.status = PError.CANCELLED := by
  rw [drainQueue_eq_filterMap] at h
  obtain ⟨e, _, he⟩ := List.mem_filterMap.mp h
  cases hcb : e.completed_cb with
  | some cb =>
      simp only [cancelOf, hcb, Option.map_some'] at he
      simp at he
      rw [← he]
  | none => simp [cancelOf, hcb] at he

theorem drainQueue_length : ∀ q : List publish_event_t,
    (drainQueue q).length =
      (q.filter (fun e => e.completed_cb.isSome)).length
  | [] => rfl
  | e :: rest => by
      cases hcb : e.completed_cb with
      | some cb =>
          simp [drainQueue, hcb, List.filter_cons, drainQueue_length rest]
      | none =>
          simp [drainQueue, hcb, List.filter_cons, drainQueue_length rest]

/-- C7: cleanup removes every queued request exactly once across all
levels — its callback-invocation list is the in-order concatenation, over
the levels, of exactly one `Cancelled` call per queued request that has a
callback — leaves every queue empty, and never invokes the transport
publish operation. -/
theorem C7_cleanup_drains :
    ∀ bp : BP,
      (cleanup bp).1._queues = bp._queues.map (fun _ => []) ∧
      (∀ q ∈ (cleanup bp).1._queues, q = []) ∧
      (cleanup bp).1.running = bp.running ∧
      (cleanup bp).2.1 =
        (bp._queues.map (fun q => q.filterMap cancelOf)).flatten ∧
      (∀ c ∈ (cleanup bp).2.1, c.status = PError.CANCELLED) ∧
      (cleanup bp).2.1.length =
        ((bp._queues.map
          (fun q => (q.filter (fun e => e.completed_cb.isSome)).length)).sum) ∧
      (cleanup bp).2.2 = [] := by
  intro bp
  refine ⟨rfl, ?_, rfl, ?_, ?_, ?_, rfl⟩
  · intro q hq
    obtain ⟨q₀, _, h⟩ := List.mem_map.mp hq
    exact h.symm
  · show (bp._queues.map drainQueue).flatten = _
    rw [funext drainQueue_eq_filterMap]
  · intro c hc
    obtain ⟨lc, hlc, hcin⟩ := List.mem_flatten.mp hc
    obtain ⟨q, _, hq⟩ := List.mem_map.mp hlc
    rw [← hq] at hcin
    exact drainQueue_status q c hcin
  · show (bp._queues.map drainQueue).flatten.length = _
    rw [List.length_flatten, List.map_map]
    congr 1
    apply List.map_congr_left
    intro q _
    exact drainQueue_length q

/-- C7 witness: a two-level state with two requests (one with a callback,
one without) at level 0 and one with a callback at level 1 drains to two
cancellation calls and empty queues. -/
theorem C7_cleanup_drains_witness :
    (cleanup ⟨[[mkEvent ['a'] none 0 (some 5) 0, mkEvent ['b'] none 0 none 0],
        [mkEvent ['c'] none 0 (some 6) 0]], true, 8⟩).2.1.length = 2 ∧
    (∀ q ∈ (cleanup ⟨[[mkEvent ['a'] none 0 (some 5) 0,
        mkEvent ['b'] none 0 none 0],
        [mkEvent ['c'] none 0 (some 6) 0]], true, 8⟩).1._queues, q = []) := by
  have h := C7_cleanup_drains ⟨[[mkEvent ['a'] none 0 (some 5) 0,
    mkEvent ['b'] none 0 none 0], [mkEvent ['c'] none 0 (some 6) 0]], true, 8⟩
  refine ⟨?_, h.2.1⟩
  rw [h.2.2.2.2.2.1]
  decide

/-- C3: every operation (`publish`, worker tick, `cleanup`) preserves the
per-level bound `length ≤ maxEntries`; a publish to a level already
holding `maxEntries` requests returns false with no state change; and
after the worker dequeues one request from such a level, a publish at
that level succeeds again. -/
theorem C3_capacity_bound :
    (∀ (bp : BP) (n : List Char) (d : Option (List Char)) (f p : Nat)
       (cb : Option Nat) (cx : Nat),
       (∀ q ∈ bp._queues, q.length ≤ bp.maxEntries) →
       ∀ q ∈ (publish bp n d f p cb cx).2._queues,
         q.length ≤ bp.maxEntries) ∧
    (∀ (s : WorkerState) (now : Nat),
       (∀ q ∈ s.bp._queues, q.length ≤ s.bp.maxEntries) →
       ∀ q ∈ (tick s now).st.bp._queues, q.length ≤ s.bp.maxEntries) ∧
    (∀ bp : BP, ∀ q ∈ (cleanup bp).1._queues, q.length ≤ bp.maxEntries) ∧
    (∀ (bp : BP) (n : List Char) (d : Option (List Char)) (f p : Nat)
       (cb : Option Nat) (cx : Nat),
       (bp._queues.getD p []).length = bp.maxEntries →
       publish bp n d f p cb cx = (false, bp)) ∧
    (∀ (s : WorkerState) (now : Nat) (p : Nat) (e : publish_event_t)
       (n : List Char) (d : Option (List Char)) (f : Nat)
       (cb : Option Nat) (cx : Nat),
       (tick s now).dispatched = some (p, e) →
       (s.bp._queues.getD p []).length = s.bp.maxEntries →
       (publish (tick s now).st.bp n d f p cb cx).1 = true) := by
  refine ⟨?_, ?_, ?_, ?_, ?_⟩
  · intro bp n d f p cb cx hinv q hq
    by_cases hrej : bp.running = false ∨ bp._queues.length ≤ p ∨
        bp.maxEntries ≤ (bp._queues.getD p []).length
    · rw [publish_eq_reject bp n d f p cb cx hrej] at hq
      exact hinv q hq
    · push_neg at hrej
      obtain ⟨h1, h2, h3⟩ := hrej
      have h1' : bp.running = true := by
        cases hb : bp.running with
        | true => rfl
        | false => exact absurd hb h1
      rw [publish_eq_accept bp n d f p cb cx h1' h2 h3] at hq
      rcases List.mem_or_eq_of_mem_set hq with hmem | heq
      · exact hinv q hmem
      · rw [heq]
        have hold : (bp._queues.getD p []).length < bp.maxEntries := h3
        simp only [List.length_append, List.length_cons, List.length_nil]
        omega
  · intro s now hinv q hq
    rcases tick_cases s now with h0 | ⟨l, e, qs', hscan, hrun, hadm, heq⟩
    · rw [h0] at hq
      exact hinv q hq
    · rw [heq] at hq
      obtain ⟨hlt, hlen, hget, hother⟩ :=
        scanQueues_eq_some s.bp._queues qs' l e hscan
      obtain ⟨m, hm, hgm⟩ := mem_exists_getD ([] : List publish_event_t) qs' q hq
      by_cases hml : m = l
      · subst hml
        have hq0 : s.bp._queues.getD m [] ∈ s.bp._queues :=
          getD_mem [] s.bp._queues m (by omega)
        have := hinv _ hq0
        rw [hget] at this
        rw [← hgm]
        simp only [List.length_cons] at this
        omega
      · rw [← hgm, hother m hml]
        exact hinv _ (getD_mem [] s.bp._queues m (by omega))
  · intro bp q hq
    obtain ⟨q₀, _, h⟩ := List.mem_map.mp hq
    rw [← h]
    simp
  · intro bp n d f p cb cx hfull
    exact publish_eq_reject bp n d f p cb cx (Or.inr (Or.inr (le_of_eq hfull.symm)))
  · intro s now p e n d f cb cx hdisp hfull
    obtain ⟨hrun, hadm, hscan, hrun', hmax', hpt, hi⟩ :=
      tick_some_inv s now p e hdisp
    obtain ⟨hlt, hlen, hget, hother⟩ :=
      scanQueues_eq_some s.bp._queues ((tick s now).st.bp._queues) p e hscan
    have hnew : ((tick s now).st.bp._queues.getD p []).length <
        (tick s now).st.bp.maxEntries := by
      rw [hmax']
      have := congrArg List.length hget
      simp only [List.length_cons] at this
      omega
    have hplt : p < (tick s now).st.bp._queues.length := by omega
    rw [publish_eq_accept _ n d f p cb cx (by rw [hrun', hrun]) hplt hnew]

/-- C3 witness: with `maxEntries = 1` and level 0 full, a publish is
rejected unchanged; after the worker dispatches the level-0 item, a
publish at level 0 succeeds. -/
theorem C3_capacity_bound_witness :
    publish ⟨[[mkEvent ['a'] none 0 none 0], []], true, 1⟩ ['b'] none 0 0
        none 0 =
      (false, ⟨[[mkEvent ['a'] none 0 none 0], []], true, 1⟩) ∧
    (publish (tick ⟨⟨[[mkEvent ['a'] none 0 none 0], []], true, 1⟩,
        [0, 0], 0⟩ 1000).st.bp ['b'] none 0 0 none 0).1 = true := by
  constructor
  · exact C3_capacity_bound.2.2.2.1 _ ['b'] none 0 0 none 0 (by decide)
  · exact C3_capacity_bound.2.2.2.2 ⟨⟨[[mkEvent ['a'] none 0 none 0], []],
      true, 1⟩, [0, 0], 0⟩ 1000 0 (mkEvent ['a'] none 0 none 0) ['b'] none 0
      none 0 (by decide) (by decide)

/-- C9 counterexample: with both queues empty, a running publisher and an
admitting clock value, the worker tick leaves the rate-limiter state
completely unchanged — the window does not record the tick, contrary to
the claim that the admission slot is consumed. -/
theorem C9_counterexample :
    1000 ≤ u32sub 2000 ((([0, 0] : List Nat)).getD 0 0) ∧
    tick ⟨⟨[[], []], true, 8⟩, [0, 0], 0⟩ 2000 =
      ⟨⟨⟨[[], []], true, 8⟩, [0, 0], 0⟩, none⟩ ∧
    (2000 : Nat) ∉ (tick ⟨⟨[[], []], true, 8⟩, [0, 0], 0⟩ 2000).st.publish_t := by
  refine ⟨by decide, by decide, by decide⟩

/-- C9 amended: on a worker tick where every queue is empty, the rate
limiter does not advance — whether or not the admission check passes, the
whole worker state (including `publish_t` and `i`) is unchanged and
nothing is dispatched; the admission slot is consumed only when an item
is actually dispatched. -/
theorem C9_no_advance_on_empty :
    ∀ (s : WorkerState) (now : Nat),
      (∀ q ∈ s.bp._queues, q = []) → tick s now = ⟨s, none⟩ := by
  intro s now hempty
  rcases tick_cases s now with h0 | ⟨l, e, qs', hscan, _, _, _⟩
  · exact h0
  · rw [(scanQueues_eq_none s.bp._queues).mpr hempty] at hscan
    exact absurd hscan (by simp)

/-- C9 witness: the amended statement applied at an empty two-level state
with an admitting clock value. -/
theorem C9_no_advance_on_empty_witness :
    tick ⟨⟨[[], []], true, 8⟩, [500, 0], 1⟩ 9999 =
      ⟨⟨⟨[[], []], true, 8⟩, [500, 0], 1⟩, none⟩ :=
  C9_no_advance_on_empty ⟨⟨[[], []], true, 8⟩, [500, 0], 1⟩ 9999 (by decide)

/-- C8 counterexample: from the worker's initial rate-limiter state (both
window slots zero-initialised), with work available, the dispatch
attempts at t = 0, 0, 500, 1000 result in a single dispatch at t = 1000;
in particular nothing is dispatched at t = 0, contrary to the claimed
admission at t = 0. -/
theorem C8_counterexample :
    dispatchTimes ⟨⟨[[mkEvent ['a'] none 0 none 0, mkEvent ['a'] none 0 none 0,
          mkEvent ['a'] none 0 none 0, mkEvent ['a'] none 0 none 0], []],
          true, 8⟩, [0, 0], 0⟩
        [Op.tickAt 0, Op.tickAt 0, Op.tickAt 500, Op.tickAt 1000] =
      [1000] ∧
    (0 : Nat) ∉
      dispatchTimes ⟨⟨[[mkEvent ['a'] none 0 none 0, mkEvent ['a'] none 0 none 0,
          mkEvent ['a'] none 0 none 0, mkEvent ['a'] none 0 none 0], []],
          true, 8⟩, [0, 0], 0⟩
        [Op.tickAt 0, Op.tickAt 0, Op.tickAt 500, Op.tickAt 1000] := by
  refine ⟨by decide, by decide⟩

/-- C8 amended: because the window slots start at zero, no dispatch is
admitted before t = ProcessIntervalMs, so the attempts at t = 0, 0, 500
are all denied and only t = 1000 is admitted; the claimed
admit/admit(second slot)/deny/admit pattern holds for the same schedule
shifted one interval later, t = 1000, 1000, 1500, 2000, after which the
window holds [2000, 1000] and the slot index is 1. -/
theorem C8_rate_limiter_schedule :
    dispatchTimes ⟨⟨[[mkEvent ['a'] none 0 none 0, mkEvent ['a'] none 0 none 0,
          mkEvent ['a'] none 0 none 0, mkEvent ['a'] none 0 none 0], []],
          true, 8⟩, [0, 0], 0⟩
        [Op.tickAt 1000, Op.tickAt 1000, Op.tickAt 1500, Op.tickAt 2000] =
      [1000, 1000, 2000] ∧
    (runOps ⟨⟨[[mkEvent ['a'] none 0 none 0, mkEvent ['a'] none 0 none 0,
          mkEvent ['a'] none 0 none 0, mkEvent ['a'] none 0 none 0], []],
          true, 8⟩, [0, 0], 0⟩
        [Op.tickAt 1000, Op.tickAt 1000, Op.tickAt 1500,
          Op.tickAt 2000]).1.publish_t = [2000, 1000] ∧
    (runOps ⟨⟨[[mkEvent ['a'] none 0 none 0, mkEvent ['a'] none 0 none 0,
          mkEvent ['a'] none 0 none 0, mkEvent ['a'] none 0 none 0], []],
          true, 8⟩, [0, 0], 0⟩
        [Op.tickAt 1000, Op.tickAt 1000, Op.tickAt 1500,
          Op.tickAt 2000]).1.i = 1 := by
  refine ⟨by decide, by decide, by decide⟩

theorem publish_false_state (bp : BP) (n : List Char)
    (d : Option (List Char)) (f p : Nat) (cb : Option Nat) (cx : Nat)
    (h : (publish bp n d f p cb cx).1 = false) :
    (publish bp n d f p cb cx).2 = bp := by
  by_cases hrej : bp.running = false ∨ bp._queues.length ≤ p ∨
      bp.maxEntries ≤ (bp._queues.getD p []).length
  · rw [publish_eq_reject bp n d f p cb cx hrej]
  · push_neg at hrej
    obtain ⟨h1, h2, h3⟩ := hrej
    have h1' : bp.running = true := by
      cases hb : bp.running with
      | true => rfl
      | false => exact absurd hb h1
    rw [publish_eq_accept bp n d f p cb cx h1' h2 h3] at h
    exact absurd h (by simp)

/-- C4: within each priority level, dispatch order equals enqueue order
(FIFO): over any sequence of producer publishes and worker iterations, the
events dispatched from level `p` followed by the remaining contents of
queue `p` are exactly the initial contents of queue `p` followed by the
events accepted at level `p`, in order. -/
theorem C4_fifo_per_level :
    ∀ (ops : List Op) (s : WorkerState) (p : Nat),
      dispatchedAt p (runOps s ops).2 ++
          (runOps s ops).1.bp._queues.getD p [] =
        s.bp._queues.getD p [] ++ acceptedAt p s ops := by
  intro ops
  induction ops with
  | nil => intro s p; simp [runOps, acceptedAt, dispatchedAt]
  | cons op rest ih =>
      intro s p
      cases op with
      | pub n d f pr cb cx =>
          have hq : (⟨(publish s.bp n d f pr cb cx).2, s.publish_t,
                s.i⟩ : WorkerState).bp._queues.getD p [] =
              s.bp._queues.getD p [] ++
                (if (publish s.bp n d f pr cb cx).1 = true ∧ pr = p
                 then [mkEvent n d f cb cx] else []) := by
            by_cases hacc : (publish s.bp n d f pr cb cx).1 = true
            · obtain ⟨h1, h2, h3⟩ := publish_true_inv s.bp n d f pr cb cx hacc
              by_cases hpr : pr = p
              · subst hpr
                rw [if_pos ⟨hacc, rfl⟩]
                show (publish s.bp n d f pr cb cx).2._queues.getD pr [] = _
                rw [publish_eq_accept s.bp n d f pr cb cx h1 h2 h3]
                exact getD_set_self [] s.bp._queues pr _ h2
              · rw [if_neg (fun hc => hpr hc.2)]
                show (publish s.bp n d f pr cb cx).2._queues.getD p [] = _
                rw [publish_eq_accept s.bp n d f pr cb cx h1 h2 h3]
                simp only [List.append_nil]
                exact getD_set_ne [] s.bp._queues pr p _ hpr
            · have hff : (publish s.bp n d f pr cb cx).1 = false := by
                cases hb : (publish s.bp n d f pr cb cx).1 with
                | true => exact absurd hb hacc
                | false => rfl
              rw [if_neg (fun hc => hacc hc.1)]
              show (publish s.bp n d f pr cb cx).2._queues.getD p [] = _
              rw [publish_false_state s.bp n d f pr cb cx hff]
              simp
          show dispatchedAt p (runOps ⟨(publish s.bp n d f pr cb cx).2,
              s.publish_t, s.i⟩ rest).2 ++
              (runOps ⟨(publish s.bp n d f pr cb cx).2, s.publish_t,
                s.i⟩ rest).1.bp._queues.getD p [] =
            s.bp._queues.getD p [] ++
              ((if (publish s.bp n d f pr cb cx).1 = true ∧ pr = p
                then [mkEvent n d f cb cx] else []) ++
                acceptedAt p ⟨(publish s.bp n d f pr cb cx).2, s.publish_t,
                  s.i⟩ rest)
          rw [ih ⟨(publish s.bp n d f pr cb cx).2, s.publish_t, s.i⟩ p, hq,
            List.append_assoc]
      | tickAt now =>
          cases hd : (tick s now).dispatched with
          | none =>
              have hst := tick_none_state s now hd
              have hruneq : runOps s (Op.tickAt now :: rest) =
                  ((runOps (tick s now).st rest).1,
                   (runOps (tick s now).st rest).2) := by
                simp only [runOps]
                rw [hd]
                simp
              have hacceq : acceptedAt p s (Op.tickAt now :: rest) =
                  acceptedAt p (tick s now).st rest := rfl
              rw [hruneq, hacceq, hst]
              exact ih s p
          | some le =>
              obtain ⟨l, e⟩ := le
              obtain ⟨hrun, hadm, hscan, hrun', hmax', hpt, hi⟩ :=
                tick_some_inv s now l e hd
              obtain ⟨hlt, hlen, hget, hother⟩ :=
                scanQueues_eq_some _ _ l e hscan
              have hruneq : runOps s (Op.tickAt now :: rest) =
                  ((runOps (tick s now).st rest).1,
                   (now, l, e) :: (runOps (tick s now).st rest).2) := by
                simp only [runOps]
                rw [hd]
                simp
              have hacceq : acceptedAt p s (Op.tickAt now :: rest) =
                  acceptedAt p (tick s now).st rest := rfl
              have hdisp : dispatchedAt p
                  ((now, l, e) :: (runOps (tick s now).st rest).2) =
                  (if l = p then [e] else []) ++
                    dispatchedAt p (runOps (tick s now).st rest).2 := by
                by_cases hlp : l = p
                · simp [dispatchedAt, List.filterMap_cons, hlp]
                · simp [dispatchedAt, List.filterMap_cons, hlp]
              rw [hruneq, hacceq]
              show dispatchedAt p ((now, l, e) ::
                  (runOps (tick s now).st rest).2) ++ _ = _
              rw [hdisp, List.append_assoc, ih (tick s now).st p]
              by_cases hlp : l = p
              · subst hlp
                rw [if_pos rfl, hget]
                simp
              · rw [if_neg hlp, hother p (fun hc => hlp hc.symm)]
                simp

theorem exists_getD_of_one {α : Type} (d : α) (px : α → Bool) :
    ∀ L : List α, 1 ≤ (L.filter px).length →
      ∃ c, c < L.length ∧ px (L.getD c d) = true
  | [], h => by simp at h
  | x :: t, h => by
      cases hp : px x with
      | true => exact ⟨0, by simp, by simpa using hp⟩
      | false =>
          rw [List.filter_cons, if_neg (by simp [hp])] at h
          obtain ⟨c, hc, hpc⟩ := exists_getD_of_one d px t h
          exact ⟨c + 1, by simpa using hc, by simpa using hpc⟩

theorem exists_getD_of_two {α : Type} (d : α) (px : α → Bool) :
    ∀ L : List α, 2 ≤ (L.filter px).length →
      ∃ c, 1 ≤ c ∧ c < L.length ∧ px (L.getD c d) = true
  | [], h => by simp at h
  | x :: t, h => by
      cases hp : px x with
      | true =>
          rw [List.filter_cons, if_pos (by simp [hp])] at h
          simp only [List.length_cons] at h
          obtain ⟨c, hc, hpc⟩ := exists_getD_of_one d px t (by omega)
          exact ⟨c + 1, by omega, by simpa using hc, by simpa using hpc⟩
      | false =>
          rw [List.filter_cons, if_neg (by simp [hp])] at h
          obtain ⟨c, h1, hc, hpc⟩ := exists_getD_of_two d px t h
          exact ⟨c + 1, by omega, by simpa using hc, by simpa using hpc⟩

theorem exists_getD_of_three {α : Type} (d : α) (px : α → Bool) :
    ∀ L : List α, 3 ≤ (L.filter px).length →
      ∃ a c, a + 2 ≤ c ∧ c < L.length ∧
        px (L.getD a d) = true ∧ px (L.getD c d) = true
  | [], h => by simp at h
  | x :: t, h => by
      cases hp : px x with
      | true =>
          rw [List.filter_cons, if_pos (by simp [hp])] at h
          simp only [List.length_cons] at h
          obtain ⟨c, h1, hc, hpc⟩ := exists_getD_of_two d px t (by omega)
          exact ⟨0, c + 1, by omega, by simpa using hc, by simpa using hp,
            by simpa using hpc⟩
      | false =>
          rw [List.filter_cons, if_neg (by simp [hp])] at h
          obtain ⟨a, c, hac, hc, hpa, hpc⟩ := exists_getD_of_three d px t h
          exact ⟨a + 1, c + 1, by omega, by simpa using hc,
            by simpa using hpa, by simpa using hpc⟩

theorem getD_antitone_of_adjacent (L : List Nat)
    (hD : ∀ k, k + 1 < L.length → L.getD (k + 1) 0 ≤ L.getD k 0) :
    ∀ j k, j ≤ k → k < L.length → L.getD k 0 ≤ L.getD j 0 := by
  intro j k hjk
  induction k, hjk using Nat.le_induction with
  | base => intro _; exact le_refl _
  | succ k hjk ih =>
      intro hk
      exact le_trans (hD k hk) (ih (by omega))

theorem window_count (L : List Nat) (T : Nat)
    (hC : ∀ k, k + 2 < L.length →
      L.getD (k + 2) 0 + process_interval ≤ L.getD k 0)
    (hD : ∀ k, k + 1 < L.length → L.getD (k + 1) 0 ≤ L.getD k 0) :
    (L.filter
      (fun t => decide (T ≤ t ∧ t < T + process_interval))).length ≤ 2 := by
  by_contra hcon
  obtain ⟨a, c, hac, hcl, hpa, hpc⟩ :=
    exists_getD_of_three 0 (fun t => decide (T ≤ t ∧ t < T + process_interval))
      L (by omega)
  have hpa' : T ≤ L.getD a 0 ∧ L.getD a 0 < T + process_interval :=
    of_decide_eq_true hpa
  have hpc' : T ≤ L.getD c 0 ∧ L.getD c 0 < T + process_interval :=
    of_decide_eq_true hpc
  have h1 : L.getD (a + 2) 0 + process_interval ≤ L.getD a 0 :=
    hC a (by omega)
  have h2 : L.getD c 0 ≤ L.getD (a + 2) 0 :=
    getD_antitone_of_adjacent L hD (a + 2) c hac hcl
  omega

theorem rate_run : ∀ (ops : List Op) (s : WorkerState) (dts : List Nat),
    RateInv s dts →
    (tickTimes ops).Sorted (· ≤ ·) →
    (∀ t ∈ tickTimes ops, t < U32) →
    (∀ t ∈ dts, ∀ m ∈ tickTimes ops, t ≤ m) →
    RateInv (runOps s ops).1 ((dispatchTimes s ops).reverse ++ dts) := by
  intro ops
  induction ops with
  | nil =>
      intro s dts hInv _ _ _
      simpa [dispatchTimes, runOps] using hInv
  | cons op rest ih =>
      intro s dts hInv hSort hU32 hBound
      cases op with
      | pub n d f pr cb cx =>
          exact ih ⟨(publish s.bp n d f pr cb cx).2, s.publish_t, s.i⟩ dts
            hInv hSort hU32 hBound
      | tickAt now =>
          have htt : tickTimes (Op.tickAt now :: rest) =
              now :: tickTimes rest := rfl
          rw [htt] at hSort hU32 hBound
          have hSort' := (List.sorted_cons.mp hSort).2
          have hnow_le := (List.sorted_cons.mp hSort).1
          have hnowU32 : now < U32 := hU32 now (List.mem_cons_self _ _)
          have hU32' : ∀ t ∈ tickTimes rest, t < U32 :=
            fun t ht => hU32 t (List.mem_cons_of_mem _ ht)
          cases hd : (tick s now).dispatched with
          | none =>
              have hst := tick_none_state s now hd
              have hdt : dispatchTimes s (Op.tickAt now :: rest) =
                  dispatchTimes (tick s now).st rest := by
                simp [dispatchTimes, runOps, hd]
              have hrn : (runOps s (Op.tickAt now :: rest)).1 =
                  (runOps (tick s now).st rest).1 := rfl
              rw [hdt, hrn, hst]
              exact ih s dts hInv hSort' hU32'
                (fun t ht m hm => hBound t ht m (List.mem_cons_of_mem _ hm))
          | some le =>
              obtain ⟨l, e⟩ := le
              obtain ⟨hrun, hadm, hscan, hrun', hmax', hpt, hi⟩ :=
                tick_some_inv s now l e hd
              unfold RateInv at hInv
              obtain ⟨hlen2, hilt, hC, hD, hE, hF⟩ := hInv
              have hi2 : (tick s now).st.i = (s.i + 1) % 2 := hi
              have hInv' : RateInv (tick s now).st (now :: dts) := by
                unfold RateInv
                refine ⟨?_, ?_, ?_, ?_, ?_, ?_⟩
                · rw [hpt, List.length_set]; exact hlen2
                · rw [hi2]; omega
                · intro k hk
                  cases k with
                  | zero =>
                      simp only [List.length_cons] at hk
                      have hslot : s.publish_t.getD s.i 0 = dts.getD 1 0 :=
                        hF (by omega)
                      have hmem : dts.getD 1 0 ∈ dts :=
                        getD_mem 0 dts 1 (by omega)
                      have hle : dts.getD 1 0 ≤ now :=
                        hBound _ hmem now (List.mem_cons_self _ _)
                      have hle2 : s.publish_t.getD s.i 0 ≤ now := by
                        rw [hslot]; exact hle
                      have hx := u32sub_exact hle2 hnowU32
                      rw [hx] at hadm
                      show dts.getD 1 0 + process_interval ≤ now
                      rw [← hslot]
                      omega
                  | succ k₀ =>
                      simp only [List.length_cons] at hk
                      have := hC k₀ (by omega)
                      simpa using this
                · intro k hk
                  cases k with
                  | zero =>
                      simp only [List.length_cons] at hk
                      have hmem : dts.getD 0 0 ∈ dts :=
                        getD_mem 0 dts 0 (by omega)
                      simpa using hBound _ hmem now (List.mem_cons_self _ _)
                  | succ k₀ =>
                      simp only [List.length_cons] at hk
                      have := hD k₀ (by omega)
                      simpa using this
                · intro _
                  rw [hi2, hpt]
                  have hii : ((s.i + 1) % 2 + 1) % 2 = s.i := by omega
                  rw [hii]
                  show (s.publish_t.set s.i now).getD s.i 0 = now
                  exact getD_set_self 0 s.publish_t s.i now (by omega)
                · intro hlen
                  rw [hi2, hpt]
                  have hne : s.i ≠ (s.i + 1) % 2 := by omega
                  show (s.publish_t.set s.i now).getD ((s.i + 1) % 2) 0 =
                    (now :: dts).getD 1 0
                  rw [getD_set_ne 0 s.publish_t s.i ((s.i + 1) % 2) now hne]
                  simp only [List.length_cons] at hlen
                  have := hE (by omega)
                  simpa using this
              have hdt : dispatchTimes s (Op.tickAt now :: rest) =
                  now :: dispatchTimes (tick s now).st rest := by
                simp [dispatchTimes, runOps, hd]
              have hrn : (runOps s (Op.tickAt now :: rest)).1 =
                  (runOps (tick s now).st rest).1 := rfl
              rw [hdt, hrn, List.reverse_cons, List.append_assoc]
              have hBound' : ∀ t ∈ now :: dts, ∀ m ∈ tickTimes rest,
                  t ≤ m := by
                intro t ht m hm
                rcases List.mem_cons.mp ht with h0 | h1
                · subst h0; exact hnow_le m hm
                · exact hBound t h1 m (List.mem_cons_of_mem _ hm)
              exact ih (tick s now).st (now :: dts) hInv' hSort' hU32' hBound'

/-- C6: in every worker execution with monotone `system_tick_t` clock
readings, at most `burst_rate` dispatches occur within any
`process_interval`-millisecond window; a dispatch at clock `now` happens
only if `now - publish_t[i] >= process_interval` (unsigned subtraction
against the least-recently-used slot), in which case that slot is set to
`now` and the index advances cyclically; when the check fails nothing is
dispatched, and when it passes with work available something is. -/
theorem C6_rate_window :
    (∀ (s : WorkerState) (ops : List Op) (T : Nat),
      s.publish_t.length = burst_rate → s.i < burst_rate →
      (tickTimes ops).Sorted (· ≤ ·) →
      (∀ t ∈ tickTimes ops, t < U32) →
      ((dispatchTimes s ops).filter
        (fun t => decide (T ≤ t ∧ t < T + process_interval))).length ≤
        burst_rate) ∧
    (∀ (s : WorkerState) (now : Nat) (l : Nat) (e : publish_event_t),
      (tick s now).dispatched = some (l, e) →
      process_interval ≤ u32sub now (s.publish_t.getD s.i 0) ∧
      (tick s now).st.publish_t = s.publish_t.set s.i now ∧
      (tick s now).st.i = (s.i + 1) % burst_rate) ∧
    (∀ (s : WorkerState) (now : Nat),
      ¬ process_interval ≤ u32sub now (s.publish_t.getD s.i 0) →
      (tick s now).dispatched = none) ∧
    (∀ (s : WorkerState) (now : Nat),
      s.bp.running = true →
      scanQueues s.bp._queues ≠ none →
      process_interval ≤ u32sub now (s.publish_t.getD s.i 0) →
      (tick s now).dispatched ≠ none) := by
  refine ⟨?_, ?_, ?_, ?_⟩
  · intro s ops T hlen hi hSort hU32
    have hInit : RateInv s [] := by
      unfold RateInv
      refine ⟨hlen, hi, ?_, ?_, ?_, ?_⟩
      · intro k hk; simp at hk
      · intro k hk; simp at hk
      · intro h; simp at h
      · intro h; simp at h
    have hrr := rate_run ops s [] hInit hSort hU32
      (by intro t ht; simp at ht)
    rw [List.append_nil] at hrr
    unfold RateInv at hrr
    obtain ⟨_, _, hC, hD, _, _⟩ := hrr
    have hwc := window_count ((dispatchTimes s ops).reverse) T hC hD
    rw [List.filter_reverse] at hwc
    simp only [List.length_reverse] at hwc
    exact hwc
  · intro s now l e hd
    obtain ⟨_, hadm, _, _, _, hpt, hi⟩ := tick_some_inv s now l e hd
    exact ⟨hadm, hpt, hi⟩
  · intro s now hnadm
    rcases tick_cases s now with h0 | ⟨l, e, qs', hscan, hrun, hadm, heq⟩
    · rw [h0]
    · exact absurd hadm hnadm
  · intro s now hrun hwork hadm
    cases hscan : scanQueues s.bp._queues with
    | none => exact absurd hscan hwork
    | some x =>
        obtain ⟨l, e, qs'⟩ := x
        simp only [tick, hrun, hscan]
        rw [if_neg (by decide : ¬ (true = false)), if_pos hadm]
        simp

/-- C6 witness: a run with one dispatch stays within the window bound, a
dispatching tick advances the slot index, and a tick at a clock value the
limiter rejects dispatches nothing. -/
theorem C6_rate_window_witness :
    ((dispatchTimes ⟨⟨[[mkEvent ['a'] none 0 none 0], []], true, 8⟩,
        [0, 0], 0⟩ [Op.tickAt 1000]).filter
      (fun t => decide (0 ≤ t ∧ t < 0 + process_interval))).length ≤
      burst_rate ∧
    (tick ⟨⟨[[mkEvent ['a'] none 0 none 0], []], true, 8⟩,
        [0, 0], 0⟩ 1000).st.i = (0 + 1) % burst_rate ∧
    (tick ⟨⟨[[mkEvent ['a'] none 0 none 0], []], true, 8⟩,
        [0, 0], 0⟩ 500).dispatched = none := by
  refine ⟨C6_rate_window.1 _ [Op.tickAt 1000] 0 rfl (by decide)
      (by decide) (by decide), ?_, ?_⟩
  · exact (C6_rate_window.2.1 _ 1000 0 (mkEvent ['a'] none 0 none 0)
      (by decide)).2.2
  · exact C6_rate_window.2.2.1 _ 500 (by decide)

/-- C4 witness: the FIFO equation evaluated on a concrete run with two
level-0 enqueues and two dispatching ticks. -/
theorem C4_fifo_per_level_witness :
    dispatchedAt 0 (runOps ⟨⟨[[], []], true, 8⟩, [0, 0], 0⟩
        [Op.pub ['a'] none 0 0 none 0, Op.pub ['b'] none 0 0 none 0,
         Op.tickAt 1000, Op.tickAt 2000]).2 ++
      (runOps ⟨⟨[[], []], true, 8⟩, [0, 0], 0⟩
        [Op.pub ['a'] none 0 0 none 0, Op.pub ['b'] none 0 0 none 0,
         Op.tickAt 1000, Op.tickAt 2000]).1.bp._queues.getD 0 [] =
    (⟨⟨[[], []], true, 8⟩, [0, 0], 0⟩ : WorkerState).bp._queues.getD 0 [] ++
      acceptedAt 0 ⟨⟨[[], []], true, 8⟩, [0, 0], 0⟩
        [Op.pub ['a'] none 0 0 none 0, Op.pub ['b'] none 0 0 none 0,
         Op.tickAt 1000, Op.tickAt 2000] :=
  C4_fifo_per_level
    [Op.pub ['a'] none 0 0 none 0, Op.pub ['b'] none 0 0 none 0,
     Op.tickAt 1000, Op.tickAt 2000] ⟨⟨[[], []], true, 8⟩, [0, 0], 0⟩ 0
